/-
  Verification of the encoding catalog and streaming conversion core of the
  encoding_rs library (src/lib.rs).  The static encoding/label tables, the
  label and name lookup functions, the numeric-character-reference writer,
  the replacement loops of the decoder and encoder engines, and the
  convenience decode fast path are embedded below as executable Lean
  definitions; parts of the repository that live in modules not present
  under src (the per-encoding variant state machines, macros.rs, utf_8.rs,
  ascii.rs) are modelled from the specification where a claim needs them.
-/
import Mathlib

set_option maxRecDepth 10000

namespace EncodingRs

inductive Enc where
  | big5
  | eucJp
  | eucKr
  | gbk
  | ibm866
  | iso2022Jp
  | iso885910
  | iso885913
  | iso885914
  | iso885915
  | iso885916
  | iso88592
  | iso88593
  | iso88594
  | iso88595
  | iso88596
  | iso88597
  | iso88598
  | iso88598I
  | koi8R
  | koi8U
  | shiftJis
  | utf16be
  | utf16le
  | utf8
  | gb18030
  | macintosh
  | replacement
  | windows1250
  | windows1251
  | windows1252
  | windows1253
  | windows1254
  | windows1255
  | windows1256
  | windows1257
  | windows1258
  | windows874
  | xMacCyrillic
  | xUserDefined
  deriving DecidableEq

def Enc.name : Enc -> String
  | .big5 => "Big5"
  | .eucJp => "EUC-JP"
  | .eucKr => "EUC-KR"
  | .gbk => "GBK"
  | .ibm866 => "IBM866"
  | .iso2022Jp => "ISO-2022-JP"
  | .iso885910 => "ISO-8859-10"
  | .iso885913 => "ISO-8859-13"
  | .iso885914 => "ISO-8859-14"
  | .iso885915 => "ISO-8859-15"
  | .iso885916 => "ISO-8859-16"
  | .iso88592 => "ISO-8859-2"
  | .iso88593 => "ISO-8859-3"
  | .iso88594 => "ISO-8859-4"
  | .iso88595 => "ISO-8859-5"
  | .iso88596 => "ISO-8859-6"
  | .iso88597 => "ISO-8859-7"
  | .iso88598 => "ISO-8859-8"
  | .iso88598I => "ISO-8859-8-I"
  | .koi8R => "KOI8-R"
  | .koi8U => "KOI8-U"
  | .shiftJis => "Shift_JIS"
  | .utf16be => "UTF-16BE"
  | .utf16le => "UTF-16LE"
  | .utf8 => "UTF-8"
  | .gb18030 => "gb18030"
  | .macintosh => "macintosh"
  | .replacement => "replacement"
  | .windows1250 => "windows-1250"
  | .windows1251 => "windows-1251"
  | .windows1252 => "windows-1252"
  | .windows1253 => "windows-1253"
  | .windows1254 => "windows-1254"
  | .windows1255 => "windows-1255"
  | .windows1256 => "windows-1256"
  | .windows1257 => "windows-1257"
  | .windows1258 => "windows-1258"
  | .windows874 => "windows-874"
  | .xMacCyrillic => "x-mac-cyrillic"
  | .xUserDefined => "x-user-defined"

def ENCODINGS_SORTED_BY_NAME : List Enc :=
  [Enc.big5,
   Enc.eucJp,
   Enc.eucKr,
   Enc.gbk,
   Enc.ibm866,
   Enc.iso2022Jp,
   Enc.iso885910,
   Enc.iso885913,
   Enc.iso885914,
   Enc.iso885915,
   Enc.iso885916,
   Enc.iso88592,
   Enc.iso88593,
   Enc.iso88594,
   Enc.iso88595,
   Enc.iso88596,
   Enc.iso88597,
   Enc.iso88598,
   Enc.iso88598I,
   Enc.koi8R,
   Enc.koi8U,
   Enc.shiftJis,
   Enc.utf16be,
   Enc.utf16le,
   Enc.utf8,
   Enc.gb18030,
   Enc.macintosh,
   Enc.replacement,
   Enc.windows1250,
   Enc.windows1251,
   Enc.windows1252,
   Enc.windows1253,
   Enc.windows1254,
   Enc.windows1255,
   Enc.windows1256,
   Enc.windows1257,
   Enc.windows1258,
   Enc.windows874,
   Enc.xMacCyrillic,
   Enc.xUserDefined]

def LABELS_SORTED : List String :=
  ["866",
   "ansi_x3.4-1968",
   "arabic",
   "ascii",
   "asmo-708",
   "big5",
   "big5-hkscs",
   "chinese",
   "cn-big5",
   "cp1250",
   "cp1251",
   "cp1252",
   "cp1253",
   "cp1254",
   "cp1255",
   "cp1256",
   "cp1257",
   "cp1258",
   "cp819",
   "cp866",
   "csbig5",
   "cseuckr",
   "cseucpkdfmtjapanese",
   "csgb2312",
   "csibm866",
   "csiso2022jp",
   "csiso2022kr",
   "csiso58gb231280",
   "csiso88596e",
   "csiso88596i",
   "csiso88598e",
   "csiso88598i",
   "csisolatin1",
   "csisolatin2",
   "csisolatin3",
   "csisolatin4",
   "csisolatin5",
   "csisolatin6",
   "csisolatin9",
   "csisolatinarabic",
   "csisolatincyrillic",
   "csisolatingreek",
   "csisolatinhebrew",
   "cskoi8r",
   "csksc56011987",
   "csmacintosh",
   "csshiftjis",
   "cyrillic",
   "dos-874",
   "ecma-114",
   "ecma-118",
   "elot_928",
   "euc-jp",
   "euc-kr",
   "gb18030",
   "gb2312",
   "gb_2312",
   "gb_2312-80",
   "gbk",
   "greek",
   "greek8",
   "hebrew",
   "hz-gb-2312",
   "ibm819",
   "ibm866",
   "iso-2022-cn",
   "iso-2022-cn-ext",
   "iso-2022-jp",
   "iso-2022-kr",
   "iso-8859-1",
   "iso-8859-10",
   "iso-8859-11",
   "iso-8859-13",
   "iso-8859-14",
   "iso-8859-15",
   "iso-8859-16",
   "iso-8859-2",
   "iso-8859-3",
   "iso-8859-4",
   "iso-8859-5",
   "iso-8859-6",
   "iso-8859-6-e",
   "iso-8859-6-i",
   "iso-8859-7",
   "iso-8859-8",
   "iso-8859-8-e",
   "iso-8859-8-i",
   "iso-8859-9",
   "iso-ir-100",
   "iso-ir-101",
   "iso-ir-109",
   "iso-ir-110",
   "iso-ir-126",
   "iso-ir-127",
   "iso-ir-138",
   "iso-ir-144",
   "iso-ir-148",
   "iso-ir-149",
   "iso-ir-157",
   "iso-ir-58",
   "iso8859-1",
   "iso8859-10",
   "iso8859-11",
   "iso8859-13",
   "iso8859-14",
   "iso8859-15",
   "iso8859-2",
   "iso8859-3",
   "iso8859-4",
   "iso8859-5",
   "iso8859-6",
   "iso8859-7",
   "iso8859-8",
   "iso8859-9",
   "iso88591",
   "iso885910",
   "iso885911",
   "iso885913",
   "iso885914",
   "iso885915",
   "iso88592",
   "iso88593",
   "iso88594",
   "iso88595",
   "iso88596",
   "iso88597",
   "iso88598",
   "iso88599",
   "iso_8859-1",
   "iso_8859-15",
   "iso_8859-1:1987",
   "iso_8859-2",
   "iso_8859-2:1987",
   "iso_8859-3",
   "iso_8859-3:1988",
   "iso_8859-4",
   "iso_8859-4:1988",
   "iso_8859-5",
   "iso_8859-5:1988",
   "iso_8859-6",
   "iso_8859-6:1987",
   "iso_8859-7",
   "iso_8859-7:1987",
   "iso_8859-8",
   "iso_8859-8:1988",
   "iso_8859-9",
   "iso_8859-9:1989",
   "koi",
   "koi8",
   "koi8-r",
   "koi8-ru",
   "koi8-u",
   "koi8_r",
   "korean",
   "ks_c_5601-1987",
   "ks_c_5601-1989",
   "ksc5601",
   "ksc_5601",
   "l1",
   "l2",
   "l3",
   "l4",
   "l5",
   "l6",
   "l9",
   "latin1",
   "latin2",
   "latin3",
   "latin4",
   "latin5",
   "latin6",
   "logical",
   "mac",
   "macintosh",
   "ms932",
   "ms_kanji",
   "shift-jis",
   "shift_jis",
   "sjis",
   "sun_eu_greek",
   "tis-620",
   "unicode-1-1-utf-8",
   "us-ascii",
   "utf-16",
   "utf-16be",
   "utf-16le",
   "utf-8",
   "utf8",
   "visual",
   "windows-1250",
   "windows-1251",
   "windows-1252",
   "windows-1253",
   "windows-1254",
   "windows-1255",
   "windows-1256",
   "windows-1257",
   "windows-1258",
   "windows-31j",
   "windows-874",
   "windows-949",
   "x-cp1250",
   "x-cp1251",
   "x-cp1252",
   "x-cp1253",
   "x-cp1254",
   "x-cp1255",
   "x-cp1256",
   "x-cp1257",
   "x-cp1258",
   "x-euc-jp",
   "x-gbk",
   "x-mac-cyrillic",
   "x-mac-roman",
   "x-mac-ukrainian",
   "x-sjis",
   "x-user-defined",
   "x-x-big5"]

def ENCODINGS_IN_LABEL_SORT : List Enc :=
  [Enc.ibm866,
   Enc.windows1252,
   Enc.iso88596,
   Enc.windows1252,
   Enc.iso88596,
   Enc.big5,
   Enc.big5,
   Enc.gbk,
   Enc.big5,
   Enc.windows1250,
   Enc.windows1251,
   Enc.windows1252,
   Enc.windows1253,
   Enc.windows1254,
   Enc.windows1255,
   Enc.windows1256,
   Enc.windows1257,
   Enc.windows1258,
   Enc.windows1252,
   Enc.ibm866,
   Enc.big5,
   Enc.eucKr,
   Enc.eucJp,
   Enc.gbk,
   Enc.ibm866,
   Enc.iso2022Jp,
   Enc.replacement,
   Enc.gbk,
   Enc.iso88596,
   Enc.iso88596,
   Enc.iso88598,
   Enc.iso88598I,
   Enc.windows1252,
   Enc.iso88592,
   Enc.iso88593,
   Enc.iso88594,
   Enc.windows1254,
   Enc.iso885910,
   Enc.iso885915,
   Enc.iso88596,
   Enc.iso88595,
   Enc.iso88597,
   Enc.iso88598,
   Enc.koi8R,
   Enc.eucKr,
   Enc.macintosh,
   Enc.shiftJis,
   Enc.iso88595,
   Enc.windows874,
   Enc.iso88596,
   Enc.iso88597,
   Enc.iso88597,
   Enc.eucJp,
   Enc.eucKr,
   Enc.gb18030,
   Enc.gbk,
   Enc.gbk,
   Enc.gbk,
   Enc.gbk,
   Enc.iso88597,
   Enc.iso88597,
   Enc.iso88598,
   Enc.replacement,
   Enc.windows1252,
   Enc.ibm866,
   Enc.replacement,
   Enc.replacement,
   Enc.iso2022Jp,
   Enc.replacement,
   Enc.windows1252,
   Enc.iso885910,
   Enc.windows874,
   Enc.iso885913,
   Enc.iso885914,
   Enc.iso885915,
   Enc.iso885916,
   Enc.iso88592,
   Enc.iso88593,
   Enc.iso88594,
   Enc.iso88595,
   Enc.iso88596,
   Enc.iso88596,
   Enc.iso88596,
   Enc.iso88597,
   Enc.iso88598,
   Enc.iso88598,
   Enc.iso88598I,
   Enc.windows1254,
   Enc.windows1252,
   Enc.iso88592,
   Enc.iso88593,
   Enc.iso88594,
   Enc.iso88597,
   Enc.iso88596,
   Enc.iso88598,
   Enc.iso88595,
   Enc.windows1254,
   Enc.eucKr,
   Enc.iso885910,
   Enc.gbk,
   Enc.windows1252,
   Enc.iso885910,
   Enc.windows874,
   Enc.iso885913,
   Enc.iso885914,
   Enc.iso885915,
   Enc.iso88592,
   Enc.iso88593,
   Enc.iso88594,
   Enc.iso88595,
   Enc.iso88596,
   Enc.iso88597,
   Enc.iso88598,
   Enc.windows1254,
   Enc.windows1252,
   Enc.iso885910,
   Enc.windows874,
   Enc.iso885913,
   Enc.iso885914,
   Enc.iso885915,
   Enc.iso88592,
   Enc.iso88593,
   Enc.iso88594,
   Enc.iso88595,
   Enc.iso88596,
   Enc.iso88597,
   Enc.iso88598,
   Enc.windows1254,
   Enc.windows1252,
   Enc.iso885915,
   Enc.windows1252,
   Enc.iso88592,
   Enc.iso88592,
   Enc.iso88593,
   Enc.iso88593,
   Enc.iso88594,
   Enc.iso88594,
   Enc.iso88595,
   Enc.iso88595,
   Enc.iso88596,
   Enc.iso88596,
   Enc.iso88597,
   Enc.iso88597,
   Enc.iso88598,
   Enc.iso88598,
   Enc.windows1254,
   Enc.windows1254,
   Enc.koi8R,
   Enc.koi8R,
   Enc.koi8R,
   Enc.koi8U,
   Enc.koi8U,
   Enc.koi8R,
   Enc.eucKr,
   Enc.eucKr,
   Enc.eucKr,
   Enc.eucKr,
   Enc.eucKr,
   Enc.windows1252,
   Enc.iso88592,
   Enc.iso88593,
   Enc.iso88594,
   Enc.windows1254,
   Enc.iso885910,
   Enc.iso885915,
   Enc.windows1252,
   Enc.iso88592,
   Enc.iso88593,
   Enc.iso88594,
   Enc.windows1254,
   Enc.iso885910,
   Enc.iso88598I,
   Enc.macintosh,
   Enc.macintosh,
   Enc.shiftJis,
   Enc.shiftJis,
   Enc.shiftJis,
   Enc.shiftJis,
   Enc.shiftJis,
   Enc.iso88597,
   Enc.windows874,
   Enc.utf8,
   Enc.windows1252,
   Enc.utf16le,
   Enc.utf16be,
   Enc.utf16le,
   Enc.utf8,
   Enc.utf8,
   Enc.iso88598,
   Enc.windows1250,
   Enc.windows1251,
   Enc.windows1252,
   Enc.windows1253,
   Enc.windows1254,
   Enc.windows1255,
   Enc.windows1256,
   Enc.windows1257,
   Enc.windows1258,
   Enc.shiftJis,
   Enc.windows874,
   Enc.eucKr,
   Enc.windows1250,
   Enc.windows1251,
   Enc.windows1252,
   Enc.windows1253,
   Enc.windows1254,
   Enc.windows1255,
   Enc.windows1256,
   Enc.windows1257,
   Enc.windows1258,
   Enc.eucJp,
   Enc.gbk,
   Enc.xMacCyrillic,
   Enc.macintosh,
   Enc.xMacCyrillic,
   Enc.shiftJis,
   Enc.xUserDefined,
   Enc.big5]


/-- Whitespace set used by label trimming: TAB, LF, FF, CR, SPACE. -/
def LABEL_WS (b : Nat) : Bool :=
  b = 0x09 || b = 0x0A || b = 0x0C || b = 0x0D || b = 0x20

/-- ASCII bytes of a (pure-ASCII) string literal, as used for the
`as_bytes` views of the static name and label tables. -/
def abytes (s : String) : List Nat :=
  s.toList.map Char.toNat

/-- Longest label length from src/lib.rs, documented there as the length of
the label cseucpkdfmtjapanese. -/
def LONGEST_LABEL_LENGTH : Nat := 19

/-- ASCII-lowercase a byte, as done inline in for_label. -/
def lowerByte (b : Nat) : Nat :=
  if 65 <= b && b <= 90 then b + 32 else b

/-- Walks two parallel tables (labels and their encodings) exactly like the
index loop at the end of for_label: return the encoding at the position of
the first label whose bytes equal the candidate. -/
def label_table_lookup (cand : List Nat) : List String -> List Enc -> Option Enc
  | l :: ls, e :: es => if cand = abytes l then some e else label_table_lookup cand ls es
  | _, _ => none

/-- The after loop of for_label: only whitespace may remain once a
whitespace byte has been seen inside the token. -/
def for_label_after (cand : List Nat) : List Nat -> Option Enc
  | [] => label_table_lookup cand LABELS_SORTED ENCODINGS_IN_LABEL_SORT
  | b :: rest =>
    if LABEL_WS b then for_label_after cand rest else none

/-- The inside loop of for_label: accumulate lowercased bytes into the
trimmed buffer, rejecting when trimmed_pos reaches LONGEST_LABEL_LENGTH. -/
def for_label_inside (acc : List Nat) : List Nat -> Option Enc
  | [] => label_table_lookup acc LABELS_SORTED ENCODINGS_IN_LABEL_SORT
  | b :: rest =>
    if LABEL_WS b then for_label_after acc rest
    else
      let acc2 := acc ++ [lowerByte b]
      if acc2.length = LONGEST_LABEL_LENGTH then none
      else for_label_inside acc2 rest

/-- The before loop of for_label: skip leading whitespace, then seed the
trimmed buffer with the first lowercased byte. -/
def for_label_before : List Nat -> Option Enc
  | [] => none
  | b :: rest =>
    if LABEL_WS b then for_label_before rest
    else for_label_inside [lowerByte b] rest

/-- Embeds Encoding::for_label from src/lib.rs. -/
def for_label (label : List Nat) : Option Enc :=
  for_label_before label

/-- Embeds Encoding::for_label_no_replacement from src/lib.rs. -/
def for_label_no_replacement (label : List Nat) : Option Enc :=
  match for_label label with
  | none => none
  | some enc => if enc = Enc.replacement then none else some enc

/-- Walks ENCODINGS_SORTED_BY_NAME and ENCODINGS_IN_LABEL_SORT in parallel
exactly like the index loop of for_name: the *names* are compared against
the entries of the first table, but the returned value is taken from the
second table at the same index. -/
def name_table_lookup (nm : List Nat) : List Enc -> List Enc -> Option Enc
  | e :: es, r :: rs => if nm = abytes e.name then some r else name_table_lookup nm es rs
  | _, _ => none

/-- Embeds Encoding::for_name from src/lib.rs (including its use of
ENCODINGS_IN_LABEL_SORT for the returned value). -/
def for_name (nm : List Nat) : Option Enc :=
  name_table_lookup nm ENCODINGS_SORTED_BY_NAME ENCODINGS_IN_LABEL_SORT

/-- Byte-list prefix test, standing in for slice::starts_with. -/
def starts_with : List Nat -> List Nat -> Bool
  | _, [] => true
  | [], _ :: _ => false
  | b :: bs, p :: ps => b = p && starts_with bs ps

/-- Embeds Encoding::for_bom from src/lib.rs. -/
def for_bom (buffer : List Nat) : Option (Enc × Nat) :=
  if starts_with buffer [0xEF, 0xBB, 0xBF] then some (Enc.utf8, 3)
  else if starts_with buffer [0xFF, 0xFE] then some (Enc.utf16le, 2)
  else if starts_with buffer [0xFE, 0xFF] then some (Enc.utf16be, 2)
  else none

/-- Embeds Encoding::output_encoding from src/lib.rs. -/
def Enc.output_encoding (e : Enc) : Enc :=
  if e = Enc.replacement || e = Enc.utf16be || e = Enc.utf16le then Enc.utf8 else e

/-- Embeds Encoding::can_encode_everything from src/lib.rs. -/
def Enc.can_encode_everything (e : Enc) : Bool :=
  e.output_encoding = Enc.utf8

/-- Embeds Encoding::is_ascii_compatible from src/lib.rs. -/
def Enc.is_ascii_compatible (e : Enc) : Bool :=
  !(e = Enc.replacement || e = Enc.utf16be || e = Enc.utf16le || e = Enc.iso2022Jp)

/-- NCR_EXTRA from src/lib.rs (the comment there reads: #1114111;). -/
def NCR_EXTRA : Nat := 9

/-- The len computation at the top of write_ncr: the number of decimal
digits needed for the code point plus 3 for the ampersand, the hash sign
and the semicolon. -/
def write_ncr_len (number : Nat) : Nat :=
  if number >= 1000000 then 10
  else if number >= 100000 then 9
  else if number >= 10000 then 8
  else if number >= 1000 then 7
  else if number >= 100 then 6
  else 5

/-- The digit loop of write_ncr: write the rightmost digit at pos, move
left, stop once the remaining number is a single digit. -/
def ncr_digit_loop (number pos : Nat) (dst : List Nat) : List Nat :=
  let dst2 := dst.set pos (number % 10 + 48)
  if number < 10 then dst2
  else ncr_digit_loop (number / 10) (pos - 1) dst2
termination_by number
decreasing_by
  exact Nat.div_lt_self (by omega) (by omega)

/-- Embeds write_ncr from src/lib.rs, with the destination slice as a byte
list; returns the length of the reference and the updated destination. -/
def write_ncr (unmappable : Nat) (dst : List Nat) : Nat × List Nat :=
  (write_ncr_len unmappable,
   ((ncr_digit_loop unmappable (write_ncr_len unmappable - 2)
      (dst.set (write_ncr_len unmappable - 1) 59)).set 1 35).set 0 38)

/-- Decimal digits (as ASCII bytes, most significant first, no leading
zero) of a number; the reference form the spec describes. -/
def dec_digits (n : Nat) : List Nat :=
  if h : n < 10 then [n + 48]
  else dec_digits (n / 10) ++ [n % 10 + 48]
termination_by n
decreasing_by
  exact Nat.div_lt_self (by omega) (by omega)

theorem dec_digits_length (k : Nat) : ∀ n, 10 ^ k ≤ n → n < 10 ^ (k + 1) →
    (dec_digits n).length = k + 1 := by
  induction k with
  | zero =>
    intro n h1 h2
    rw [dec_digits]
    simp at h1 h2
    rw [dif_pos h2]
    simp
  | succ k ih =>
    intro n h1 h2
    have h10 : ¬ n < 10 := by
      have : (10:Nat) ^ 1 ≤ 10 ^ (k+1) := Nat.pow_le_pow_right (by omega) (by omega)
      simp at this; omega
    rw [dec_digits, dif_neg h10]
    have hlo : 10 ^ k ≤ n / 10 := by
      rw [Nat.le_div_iff_mul_le (by omega)]
      calc 10 ^ k * 10 = 10 ^ (k+1) := by ring
        _ ≤ n := h1
    have hhi : n / 10 < 10 ^ (k + 1) := by
      rw [Nat.div_lt_iff_lt_mul (by omega)]
      calc n < 10 ^ (k+2) := h2
        _ = 10 ^ (k+1) * 10 := by ring
    rw [List.length_append, ih (n / 10) hlo hhi]
    simp

theorem dec_digits_ne_nil (n : Nat) : dec_digits n ≠ [] := by
  rw [dec_digits]
  by_cases h10 : n < 10
  · rw [dif_pos h10]; simp
  · rw [dif_neg h10]; simp

theorem dec_digits_head_ne_zero (n : Nat) (h : 1 ≤ n) :
    (dec_digits n).head? ≠ some 48 := by
  induction n using Nat.strong_induction_on with
  | _ n ih =>
    rw [dec_digits]
    by_cases h10 : n < 10
    · rw [dif_pos h10]; simp; omega
    · rw [dif_neg h10]
      have h1 : 1 ≤ n / 10 := by
        rw [Nat.le_div_iff_mul_le (by omega)]; omega
      have hne := dec_digits_ne_nil (n / 10)
      have hih := ih (n / 10) (Nat.div_lt_self (by omega) (by omega)) h1
      cases hd : dec_digits (n / 10) with
      | nil => exact absurd hd hne
      | cons a as =>
        rw [hd] at hih
        simpa using hih



theorem ncr_digit_loop_eq (n : Nat) : ∀ (pos : Nat) (dst : List Nat),
    pos < dst.length → (dec_digits n).length ≤ pos + 1 →
    ncr_digit_loop n pos dst =
      dst.take (pos + 1 - (dec_digits n).length) ++ dec_digits n ++ dst.drop (pos + 1) := by
  induction n using Nat.strong_induction_on with
  | _ n ih =>
    intro pos dst hpos hlen
    rw [ncr_digit_loop]
    by_cases h10 : n < 10
    · rw [if_pos h10]
      have hd : dec_digits n = [n % 10 + 48] := by
        rw [dec_digits, dif_pos h10, Nat.mod_eq_of_lt h10]
      rw [hd]
      simp only [List.length_cons, List.length_nil]
      rw [List.set_eq_take_cons_drop _ hpos]
      simp
    · rw [if_neg h10]
      have hdn : dec_digits n = dec_digits (n / 10) ++ [n % 10 + 48] := by
        rw [dec_digits, dif_neg h10]
      have hL1 : 1 ≤ (dec_digits (n / 10)).length :=
        List.length_pos.mpr (dec_digits_ne_nil _)
      have hlen' : (dec_digits n).length = (dec_digits (n / 10)).length + 1 := by
        rw [hdn]; simp
      have hpos1 : 1 ≤ pos := by omega
      have hset : dst.set pos (n % 10 + 48) =
          dst.take pos ++ (n % 10 + 48) :: dst.drop (pos + 1) :=
        List.set_eq_take_cons_drop _ hpos
      have hlen2 : (dst.set pos (n % 10 + 48)).length = dst.length := by simp
      rw [ih (n / 10) (Nat.div_lt_self (by omega) (by omega)) (pos - 1) _
            (by omega) (by omega)]
      have e1 : pos - 1 + 1 = pos := by omega
      rw [e1, hset]
      have htl : ((dst.take pos ++ (n % 10 + 48) :: dst.drop (pos + 1)).take
          (pos - (dec_digits (n / 10)).length)) =
          dst.take (pos - (dec_digits (n / 10)).length) := by
        rw [List.take_append_of_le_length, List.take_take]
        · congr 1; omega
        · rw [List.length_take]; omega
      have hdr : ((dst.take pos ++ (n % 10 + 48) :: dst.drop (pos + 1)).drop pos) =
          (n % 10 + 48) :: dst.drop (pos + 1) :=
        List.drop_left' (by rw [List.length_take]; omega)
      rw [htl, hdr, hlen']
      have e2 : pos + 1 - ((dec_digits (n / 10)).length + 1) =
          pos - (dec_digits (n / 10)).length := by omega
      rw [e2, hdn]
      simp

theorem write_ncr_len_eq (n : Nat) (h1 : 10 ≤ n) (h2 : n ≤ 1114111) :
    write_ncr_len n = (dec_digits n).length + 3 := by
  rw [write_ncr_len]
  by_cases h6 : n ≥ 1000000
  · rw [if_pos h6, dec_digits_length 6 n (by norm_num; omega) (by norm_num; omega)]
  rw [if_neg h6]
  by_cases h5 : n ≥ 100000
  · rw [if_pos h5, dec_digits_length 5 n (by norm_num; omega) (by norm_num; omega)]
  rw [if_neg h5]
  by_cases h4 : n ≥ 10000
  · rw [if_pos h4, dec_digits_length 4 n (by norm_num; omega) (by norm_num; omega)]
  rw [if_neg h4]
  by_cases h3 : n ≥ 1000
  · rw [if_pos h3, dec_digits_length 3 n (by norm_num; omega) (by norm_num; omega)]
  rw [if_neg h3]
  by_cases hh : n ≥ 100
  · rw [if_pos hh, dec_digits_length 2 n (by norm_num; omega) (by norm_num; omega)]
  rw [if_neg hh, dec_digits_length 1 n (by norm_num; omega) (by norm_num; omega)]



theorem write_ncr_unfold (c : Nat) (d0 d1 : Nat) (rest : List Nat)
    (h10 : 10 ≤ c) (hc : c ≤ 1114111)
    (hrest : (dec_digits c).length + 1 ≤ rest.length) :
    write_ncr c (d0 :: d1 :: rest) =
      ((dec_digits c).length + 3,
       38 :: 35 :: (dec_digits c ++ 59 :: rest.drop ((dec_digits c).length + 1))) := by
  have hD1 : 1 ≤ (dec_digits c).length := List.length_pos.mpr (dec_digits_ne_nil _)
  have hlen3 : write_ncr_len c = (dec_digits c).length + 3 := write_ncr_len_eq c h10 hc
  rw [write_ncr, hlen3]
  have e1 : (dec_digits c).length + 3 - 2 = (dec_digits c).length + 1 := by omega
  have e2 : (dec_digits c).length + 3 - 1 = (dec_digits c).length + 2 := by omega
  rw [e1, e2]
  have hset1 : (d0 :: d1 :: rest).set ((dec_digits c).length + 2) 59 =
      d0 :: d1 :: rest.set ((dec_digits c).length) 59 := rfl
  rw [hset1]
  have hsetlen : (rest.set ((dec_digits c).length) 59).length = rest.length := by simp
  have hloop := ncr_digit_loop_eq c ((dec_digits c).length + 1)
    (d0 :: d1 :: rest.set ((dec_digits c).length) 59)
    (by simp [hsetlen]; omega) (by omega)
  rw [hloop]
  have e3 : (dec_digits c).length + 1 + 1 - (dec_digits c).length = 2 := by omega
  rw [e3]
  have htk : (d0 :: d1 :: rest.set ((dec_digits c).length) 59).take 2 = [d0, d1] := rfl
  have hsp : rest.set ((dec_digits c).length) 59 =
      rest.take ((dec_digits c).length) ++ 59 :: rest.drop ((dec_digits c).length + 1) :=
    List.set_eq_take_cons_drop _ (by omega)
  have hdr : (d0 :: d1 :: rest.set ((dec_digits c).length) 59).drop
      ((dec_digits c).length + 2) = 59 :: rest.drop ((dec_digits c).length + 1) := by
    have : (d0 :: d1 :: rest.set ((dec_digits c).length) 59).drop
        ((dec_digits c).length + 2) =
        (rest.set ((dec_digits c).length) 59).drop ((dec_digits c).length) := rfl
    rw [this, hsp]
    exact List.drop_left' (by rw [List.length_take]; omega)
  rw [htk, hdr]
  rfl

/-- C7: for every scalar value at least 10 (the precondition asserted by
write_ncr) and at most 1114111, and a destination long enough for the
reference, write_ncr writes to the front of the destination exactly the
ASCII bytes of an ampersand and a hash sign, the decimal digits of the
code point with no leading zero, and a semicolon; it returns the length
of that reference, the first returned-count bytes are exactly the
reference, and the rest of the destination is untouched. -/
theorem write_ncr_correct (c : Nat) (dst : List Nat)
    (h10 : 10 ≤ c) (hc : c ≤ 1114111) (hdst : write_ncr_len c ≤ dst.length) :
    (write_ncr c dst).1 = (dec_digits c).length + 3 ∧
    (write_ncr c dst).2.take (write_ncr c dst).1 = [38, 35] ++ dec_digits c ++ [59] ∧
    (dec_digits c).head? ≠ some 48 ∧
    (write_ncr c dst).2.drop (write_ncr c dst).1 = dst.drop (write_ncr c dst).1 ∧
    (write_ncr c dst).2.length = dst.length := by
  have hlen3 : write_ncr_len c = (dec_digits c).length + 3 := write_ncr_len_eq c h10 hc
  have hD1 : 1 ≤ (dec_digits c).length := List.length_pos.mpr (dec_digits_ne_nil _)
  match dst, hdst with
  | d0 :: d1 :: rest, hdst =>
    have hrest : (dec_digits c).length + 1 ≤ rest.length := by
      simp only [List.length_cons] at hdst; omega
    have key := write_ncr_unfold c d0 d1 rest h10 hc hrest
    rw [key]
    dsimp only
    refine ⟨rfl, ?_, dec_digits_head_ne_zero c (by omega), ?_, ?_⟩
    · show ((38 :: 35 :: (dec_digits c ++ 59 :: rest.drop ((dec_digits c).length + 1))).take
        ((dec_digits c).length + 3)) = _
      have e4 : (dec_digits c).length + 3 = ((dec_digits c).length + 1) + 1 + 1 := by omega
      rw [e4, List.take_cons, List.take_cons]
      have e6 : (dec_digits c).length + 1 + 1 + 1 - 1 - 1 = (dec_digits c).length + 1 := by
        omega
      rw [e6, List.take_append 1]
      · rfl
      · omega
      · omega
    · have e4 : (dec_digits c).length + 3 = ((dec_digits c).length + 1) + 1 + 1 := by omega
      rw [e4, List.drop_succ_cons, List.drop_succ_cons, List.drop_append 1]
      rfl
    · simp only [List.length_cons, List.length_append, List.length_drop]
      omega
  | [d], hdst => simp only [List.length_cons, List.length_nil] at hdst; omega
  | [], hdst => simp at hdst; omega

/-- Model of an Encoder from src/lib.rs: the encoding it reports together
with the two worst-case sizing functions supplied by its Variant
Capability.  The variant state machines are in modules not present under
src, so the sizing functions are abstract fields; the public sizing
methods in src/lib.rs only delegate to them and add the reserve. -/
structure EncoderModel where
  encoding : Enc
  variant_max_from_utf16_without_replacement : Nat → Nat
  variant_max_from_utf8_without_replacement : Nat → Nat

/-- Embeds Encoder::max_buffer_length_from_utf16_without_replacement. -/
def EncoderModel.max_buffer_length_from_utf16_without_replacement
    (e : EncoderModel) (u16_length : Nat) : Nat :=
  e.variant_max_from_utf16_without_replacement u16_length

/-- Embeds Encoder::max_buffer_length_from_utf8_without_replacement. -/
def EncoderModel.max_buffer_length_from_utf8_without_replacement
    (e : EncoderModel) (byte_length : Nat) : Nat :=
  e.variant_max_from_utf8_without_replacement byte_length

/-- Embeds Encoder::max_buffer_length_from_utf16_if_no_unmappables. -/
def EncoderModel.max_buffer_length_from_utf16_if_no_unmappables
    (e : EncoderModel) (u16_length : Nat) : Nat :=
  e.max_buffer_length_from_utf16_without_replacement u16_length +
    (if e.encoding.can_encode_everything then 0 else NCR_EXTRA)

/-- Embeds Encoder::max_buffer_length_from_utf8_if_no_unmappables. -/
def EncoderModel.max_buffer_length_from_utf8_if_no_unmappables
    (e : EncoderModel) (byte_length : Nat) : Nat :=
  e.max_buffer_length_from_utf8_without_replacement byte_length +
    (if e.encoding.can_encode_everything then 0 else NCR_EXTRA)

theorem write_ncr_len_le_ten (c : Nat) : write_ncr_len c ≤ NCR_EXTRA + 1 := by
  rw [write_ncr_len, NCR_EXTRA]
  repeat' split
  all_goals omega

/-- Embeds the DecoderResult enumeration from src/lib.rs (the Malformed
payloads are the two wrapped integers). -/
inductive DecoderResult where
  | inputEmpty
  | outputFull
  | malformed (seqLen extra : Nat)
  deriving DecidableEq

/-- Embeds the CoderResult enumeration from src/lib.rs. -/
inductive CoderResult where
  | inputEmpty
  | outputFull
  deriving DecidableEq

/-- Embeds the EncoderResult enumeration from src/lib.rs. -/
inductive EncoderResult where
  | inputEmpty
  | outputFull
  | unmappable (c : Nat)
  deriving DecidableEq

/-- One outcome of a call to the underlying without-replacement decode
(the macro-generated decode_to_utf8_without_replacement and
decode_to_utf16_without_replacement bodies live in macros.rs and the
variant modules, which are not under src): the result, the number of
input bytes read and the code units written into the given slice. -/
structure DecStep where
  res : DecoderResult
  read : Nat
  out : List Nat
  deriving DecidableEq

/-- Bounds-checked write of a block of code units at an offset of the
destination; none models an out-of-bounds index panic. -/
def write_at (dst : List Nat) (pos : Nat) (out : List Nat) : Option (List Nat) :=
  if pos + out.length ≤ dst.length
  then some (dst.take pos ++ out ++ dst.drop (pos + out.length))
  else none

/-- Result of running one of the replacement loops: a normal return with
the accumulated totals and the final destination, a panic, or exhaustion
of the supplied oracle of underlying-call outcomes. -/
inductive DecRun where
  | done (res : CoderResult) (read written : Nat) (had : Bool) (dst : List Nat)
  | panic
  | starved
  deriving DecidableEq

/-- Embeds the loop shared by Decoder::decode_to_utf8 and
Decoder::decode_to_utf16 in src/lib.rs: call the underlying
without-replacement decode on the remaining slices, accumulate read and
written, and on Malformed append the replacement sequence repl (the three
bytes EF BF BD for UTF-8 output, the single unit FFFD for UTF-16 output)
and continue with the had-errors flag raised. -/
def decode_replacement_loop (repl : List Nat) :
    List DecStep → Nat → Nat → Bool → List Nat → DecRun
  | [], _, _, _, _ => .starved
  | step :: rest, tr, tw, had, dst =>
    match write_at dst tw step.out with
    | none => .panic
    | some dst2 =>
      match step.res with
      | .inputEmpty => .done .inputEmpty (tr + step.read) (tw + step.out.length) had dst2
      | .outputFull => .done .outputFull (tr + step.read) (tw + step.out.length) had dst2
      | .malformed _ _ =>
        match write_at dst2 (tw + step.out.length) repl with
        | none => .panic
        | some dst3 =>
          decode_replacement_loop repl rest (tr + step.read)
            (tw + step.out.length + repl.length) true dst3

/-- Embeds Decoder::decode_to_utf8 from src/lib.rs over an oracle of
underlying-call outcomes. -/
def decode_to_utf8 (steps : List DecStep) (dst : List Nat) : DecRun :=
  decode_replacement_loop [0xEF, 0xBF, 0xBD] steps 0 0 false dst

/-- Embeds Decoder::decode_to_utf16 from src/lib.rs over an oracle of
underlying-call outcomes. -/
def decode_to_utf16 (steps : List DecStep) (dst : List Nat) : DecRun :=
  decode_replacement_loop [0xFFFD] steps 0 0 false dst

/-- The specification wording of the with-replacement output: the
underlying calls' output with exactly one replacement sequence appended
after each malformed sequence, stopping at the first terminal result. -/
def spec_replacement_output (repl : List Nat) : List DecStep → List Nat
  | [] => []
  | step :: rest =>
    match step.res with
    | .inputEmpty => step.out
    | .outputFull => step.out
    | .malformed _ _ => step.out ++ repl ++ spec_replacement_output repl rest

/-- The specification wording of the aggregated had-replacements flag:
true exactly when a malformed outcome occurs before the terminal one. -/
def spec_any_malformed : List DecStep → Bool
  | [] => false
  | step :: _ =>
    match step.res with
    | .malformed _ _ => true
    | _ => false

end EncodingRs

namespace EncodingRs

theorem write_at_some (dst : List Nat) (pos : Nat) (out : List Nat) (dst2 : List Nat)
    (h : write_at dst pos out = some dst2) (hpos : pos ≤ dst.length) :
    pos + out.length ≤ dst.length ∧
    dst2.length = dst.length ∧
    dst2.take pos = dst.take pos ∧
    dst2.take (pos + out.length) = dst.take pos ++ out := by
  rw [write_at] at h
  by_cases hle : pos + out.length ≤ dst.length
  · rw [if_pos hle] at h
    cases h
    refine ⟨hle, ?_, ?_, ?_⟩
    · simp; omega
    · have h1 : dst.take pos ++ out ++ dst.drop (pos + out.length) =
          dst.take pos ++ (out ++ dst.drop (pos + out.length)) := by
        rw [List.append_assoc]
      rw [h1, List.take_append_of_le_length (by simp; omega), List.take_take]
      simp
    · have h1 : dst.take pos ++ out ++ dst.drop (pos + out.length) =
          (dst.take pos ++ out) ++ dst.drop (pos + out.length) := rfl
      rw [h1]
      have h2 : pos + out.length = (dst.take pos ++ out).length := by simp; omega
      rw [h2, List.take_left]
  · rw [if_neg hle] at h
    cases h

theorem decode_replacement_loop_invariant (repl : List Nat) (steps : List DecStep) :
    ∀ (tr tw : Nat) (had : Bool) (dst : List Nat) (res : CoderResult)
      (tr2 tw2 : Nat) (had2 : Bool) (dst2 : List Nat),
    decode_replacement_loop repl steps tr tw had dst = .done res tr2 tw2 had2 dst2 →
    tw ≤ dst.length →
    tw2 = tw + (spec_replacement_output repl steps).length ∧
    dst2.length = dst.length ∧
    dst2.take tw2 = dst.take tw ++ spec_replacement_output repl steps ∧
    had2 = (had || spec_any_malformed steps) := by
  induction steps with
  | nil =>
    intro tr tw had dst res tr2 tw2 had2 dst2 h _
    rw [decode_replacement_loop] at h
    cases h
  | cons step rest ih =>
    obtain ⟨sres, sread, sout⟩ := step
    intro tr tw had dst res tr2 tw2 had2 dst2 h htw
    rw [decode_replacement_loop] at h
    cases hw : write_at dst tw sout with
    | none =>
      rw [hw] at h
      cases h
    | some dstA =>
      rw [hw] at h
      have hA := write_at_some dst tw sout dstA hw htw
      cases sres with
      | inputEmpty =>
        cases h
        exact ⟨rfl, hA.2.1, hA.2.2.2, by simp [spec_any_malformed]⟩
      | outputFull =>
        cases h
        exact ⟨rfl, hA.2.1, hA.2.2.2, by simp [spec_any_malformed]⟩
      | malformed s e =>
        dsimp only at h
        cases hw2 : write_at dstA (tw + sout.length) repl with
        | none =>
          rw [hw2] at h
          cases h
        | some dstB =>
          rw [hw2] at h
          have htwA : tw + sout.length ≤ dstA.length := by
            rw [hA.2.1]; exact hA.1
          have hB := write_at_some dstA (tw + sout.length) repl dstB hw2 htwA
          have htwB : tw + sout.length + repl.length ≤ dstB.length := by
            rw [hB.2.1]; exact hB.1
          have hrec := ih (tr + sread) (tw + sout.length + repl.length) true dstB
            res tr2 tw2 had2 dst2 h htwB
          have hBtake : dstB.take (tw + sout.length + repl.length) =
              dst.take tw ++ sout ++ repl := by
            rw [hB.2.2.2, hA.2.2.2]
          have hpref : dst2.take tw2 =
              dst.take tw ++ sout ++ repl ++ spec_replacement_output repl rest := by
            rw [hrec.2.2.1, hBtake]
          refine ⟨?_, ?_, ?_, ?_⟩
          · rw [hrec.1]
            show _ = tw + (sout ++ repl ++ spec_replacement_output repl rest).length
            simp [List.length_append]
            omega
          · rw [hrec.2.1, hB.2.1, hA.2.1]
          · rw [hpref]
            show _ = dst.take tw ++ (sout ++ repl ++ spec_replacement_output repl rest)
            simp [List.append_assoc]
          · rw [hrec.2.2.2]
            show true = (had || true)
            simp

end EncodingRs

namespace EncodingRs

/-- C6: Decoder::decode_to_utf8 and Decoder::decode_to_utf16 never return
a Malformed result to the caller (their return type is CoderResult, whose
only values are InputEmpty and OutputFull); for each malformed outcome of
the underlying without-replacement decode they append exactly one
REPLACEMENT CHARACTER to the destination (the three bytes EF BF BD for
UTF-8 output, the single unit FFFD for UTF-16 output) and continue, and
the returned had-replacements flag is true exactly when at least one
malformed outcome occurred during the call. -/
theorem decode_to_utf8_utf16_replace_malformed
    (steps8 steps16 : List DecStep) (dst8 dst16 : List Nat)
    (res8 res16 : CoderResult) (tr8 tr16 tw8 tw16 : Nat) (had8 had16 : Bool)
    (out8 out16 : List Nat)
    (h8 : decode_to_utf8 steps8 dst8 = .done res8 tr8 tw8 had8 out8)
    (h16 : decode_to_utf16 steps16 dst16 = .done res16 tr16 tw16 had16 out16) :
    (res8 = .inputEmpty ∨ res8 = .outputFull) ∧
    (res16 = .inputEmpty ∨ res16 = .outputFull) ∧
    out8.take tw8 = spec_replacement_output [0xEF, 0xBF, 0xBD] steps8 ∧
    out16.take tw16 = spec_replacement_output [0xFFFD] steps16 ∧
    had8 = spec_any_malformed steps8 ∧
    had16 = spec_any_malformed steps16 := by
  have i8 := decode_replacement_loop_invariant [0xEF, 0xBF, 0xBD] steps8 0 0 false dst8
    res8 tr8 tw8 had8 out8 h8 (by omega)
  have i16 := decode_replacement_loop_invariant [0xFFFD] steps16 0 0 false dst16
    res16 tr16 tw16 had16 out16 h16 (by omega)
  refine ⟨by cases res8 <;> simp, by cases res16 <;> simp, ?_, ?_, ?_, ?_⟩
  · rw [i8.2.2.1]; simp
  · rw [i16.2.2.1]; simp
  · rw [i8.2.2.2]; simp
  · rw [i16.2.2.2]; simp

theorem decode_to_utf8_utf16_replace_malformed_witness :
    (decode_to_utf8 [⟨.malformed 1 0, 1, [0x61]⟩, ⟨.inputEmpty, 1, [0x62]⟩]
        (List.replicate 10 0) =
      .done .inputEmpty 2 5 true [0x61, 0xEF, 0xBF, 0xBD, 0x62, 0, 0, 0, 0, 0]) ∧
    (decode_to_utf16 [⟨.malformed 2 1, 2, []⟩, ⟨.outputFull, 0, [0x41]⟩]
        (List.replicate 4 7) =
      .done .outputFull 2 2 true [0xFFFD, 0x41, 7, 7]) ∧
    ((CoderResult.inputEmpty = .inputEmpty ∨ CoderResult.inputEmpty = .outputFull) ∧
     (CoderResult.outputFull = .inputEmpty ∨ CoderResult.outputFull = .outputFull) ∧
     ([0x61, 0xEF, 0xBF, 0xBD, 0x62, 0, 0, 0, 0, 0].take 5 : List Nat) =
       spec_replacement_output [0xEF, 0xBF, 0xBD]
         [⟨.malformed 1 0, 1, [0x61]⟩, ⟨.inputEmpty, 1, [0x62]⟩] ∧
     ([0xFFFD, 0x41, 7, 7].take 2 : List Nat) =
       spec_replacement_output [0xFFFD] [⟨.malformed 2 1, 2, []⟩, ⟨.outputFull, 0, [0x41]⟩] ∧
     true = spec_any_malformed [⟨.malformed 1 0, 1, [0x61]⟩, ⟨.inputEmpty, 1, [0x62]⟩] ∧
     true = spec_any_malformed [⟨.malformed 2 1, 2, []⟩, ⟨.outputFull, 0, [0x41]⟩]) :=
  ⟨by decide, by decide,
   decode_to_utf8_utf16_replace_malformed
     [⟨.malformed 1 0, 1, [0x61]⟩, ⟨.inputEmpty, 1, [0x62]⟩]
     [⟨.malformed 2 1, 2, []⟩, ⟨.outputFull, 0, [0x41]⟩]
     (List.replicate 10 0) (List.replicate 4 7)
     .inputEmpty .outputFull 2 2 5 2 true true
     [0x61, 0xEF, 0xBF, 0xBD, 0x62, 0, 0, 0, 0, 0] [0xFFFD, 0x41, 7, 7]
     (by decide) (by decide)⟩

end EncodingRs

namespace EncodingRs

/-- One outcome of a call to the underlying
encode_from_utf16_without_replacement / encode_from_utf8_without_replacement
(the variant encoders are in modules not under src): the result, the
number of input code units read and the number of bytes written into the
slice the call was given. -/
structure EncStep where
  res : EncoderResult
  read : Nat
  written : Nat
  deriving DecidableEq

/-- Result of running one of the encoder replacement loops. -/
inductive EncRun where
  | done (res : CoderResult) (read written : Nat) (had : Bool)
  | panic
  | starved
  deriving DecidableEq

/-- Embeds the loop of Encoder::encode_from_utf16 from src/lib.rs: each
iteration re-slices dst[total_written..effective_dst_len] (a panic when
the range start exceeds its end), runs the underlying encode (oracle
step), and on Unmappable appends a numeric character reference via
write_ncr into dst[total_written..] (a panic when the reference would
index past the end of dst).  Note there is no check after the reference
is written: the loop goes straight back to the slicing. -/
def encode_from_utf16_loop (dstLen eff : Nat) :
    List EncStep → Nat → Nat → Bool → EncRun
  | steps, tr, tw, had =>
    if eff < tw then .panic
    else
      match steps with
      | [] => .starved
      | step :: rest =>
        match step.res with
        | .inputEmpty => .done .inputEmpty (tr + step.read) (tw + step.written) had
        | .outputFull => .done .outputFull (tr + step.read) (tw + step.written) had
        | .unmappable c =>
          if dstLen < tw + step.written + write_ncr_len c then .panic
          else encode_from_utf16_loop dstLen eff rest (tr + step.read)
            (tw + step.written + write_ncr_len c) true

/-- Embeds Encoder::encode_from_utf16 from src/lib.rs, including the
effective_dst_len computation dst.len() - NCR_EXTRA (whose usize
subtraction aborts when dst is shorter than the reserve). -/
def encode_from_utf16 (can_encode_everything : Bool) (dstLen : Nat)
    (steps : List EncStep) : EncRun :=
  if can_encode_everything then encode_from_utf16_loop dstLen dstLen steps 0 0 false
  else if dstLen < NCR_EXTRA then .panic
  else encode_from_utf16_loop dstLen (dstLen - NCR_EXTRA) steps 0 0 false

/-- Embeds the loop of Encoder::encode_from_utf8 from src/lib.rs; unlike
the UTF-16 twin it returns OutputFull as soon as the position after a
written reference reaches effective_dst_len. -/
def encode_from_utf8_loop (dstLen eff : Nat) :
    List EncStep → Nat → Nat → Bool → EncRun
  | steps, tr, tw, had =>
    if eff < tw then .panic
    else
      match steps with
      | [] => .starved
      | step :: rest =>
        match step.res with
        | .inputEmpty => .done .inputEmpty (tr + step.read) (tw + step.written) had
        | .outputFull => .done .outputFull (tr + step.read) (tw + step.written) had
        | .unmappable c =>
          if dstLen < tw + step.written + write_ncr_len c then .panic
          else
            if eff ≤ tw + step.written + write_ncr_len c then
              .done .outputFull (tr + step.read) (tw + step.written + write_ncr_len c) true
            else encode_from_utf8_loop dstLen eff rest (tr + step.read)
              (tw + step.written + write_ncr_len c) true

/-- Embeds Encoder::encode_from_utf8 from src/lib.rs. -/
def encode_from_utf8 (can_encode_everything : Bool) (dstLen : Nat)
    (steps : List EncStep) : EncRun :=
  if can_encode_everything then encode_from_utf8_loop dstLen dstLen steps 0 0 false
  else if dstLen < NCR_EXTRA then .panic
  else encode_from_utf8_loop dstLen (dstLen - NCR_EXTRA) steps 0 0 false

end EncodingRs

namespace EncodingRs

/-- C3: with a destination of 19 bytes for a non-UTF-8 output encoding,
an underlying call that writes 9 bytes into its 10-byte slice and then
reports an unmappable EURO SIGN conforms to every documented contract
(the write fits the slice it was given and the asserted reserve
dst.len() - total_written >= NCR_EXTRA + 1 holds), yet
Encoder::encode_from_utf16 panics: the 7-byte reference moves
total_written to 16, past effective_dst_len = 10, and the next iteration
evaluates the inverted slice dst[16..10].  The UTF-8 twin, which checks
total_written >= effective_dst_len after writing the reference, returns
OutputFull on the same outcomes. -/
theorem encode_from_utf16_ncr_overrun_panics :
    encode_from_utf16 false 19 [⟨.unmappable 8364, 1, 9⟩, ⟨.inputEmpty, 0, 0⟩] = .panic ∧
    encode_from_utf8 false 19 [⟨.unmappable 8364, 1, 9⟩, ⟨.inputEmpty, 0, 0⟩] =
      .done .outputFull 1 16 true ∧
    (9 : Nat) ≤ 19 - NCR_EXTRA - 0 ∧
    NCR_EXTRA + 1 ≤ 19 - (0 + 9) := by
  refine ⟨by decide, by decide, by decide, by decide⟩

/-- Modelled from the spec: the variant decoders that produce Malformed
results are in modules not under src; the spec and the DecoderResult doc
comment document the payload ranges (seq_len 1..=3, extra 0..=3), which
this predicate captures for the Malformed constructor. -/
def malformed_in_documented_ranges : DecoderResult → Prop
  | .malformed seqLen extra => 1 ≤ seqLen ∧ seqLen ≤ 3 ∧ extra ≤ 3
  | _ => True

/-- C9: every Malformed(seq_len, extra_consumed) within the documented
payload ranges satisfies 1 <= seq_len <= 3, 0 <= extra_consumed <= 3 and
seq_len + extra_consumed <= 6. -/
theorem malformed_seq_extra_bounds (s e : Nat)
    (h : malformed_in_documented_ranges (.malformed s e)) :
    1 ≤ s ∧ s ≤ 3 ∧ e ≤ 3 ∧ s + e ≤ 6 := by
  obtain ⟨h1, h2, h3⟩ := h
  exact ⟨h1, h2, h3, by omega⟩

theorem malformed_seq_extra_bounds_witness :
    malformed_in_documented_ranges (.malformed 3 3) ∧
    ((1 : Nat) ≤ 3 ∧ (3 : Nat) ≤ 3 ∧ (3 : Nat) ≤ 3 ∧ (3 : Nat) + 3 ≤ 6) :=
  ⟨⟨by norm_num, by norm_num, by norm_num⟩,
   malformed_seq_extra_bounds 3 3 ⟨by norm_num, by norm_num, by norm_num⟩⟩

end EncodingRs

namespace EncodingRs

/-- C4 counterexample: for the windows-1252 encoder (whose output encoding
cannot encode all of Unicode) the reserve added by the if-no-unmappables
sizing functions is NCR_EXTRA = 9 bytes, while the worst-case numeric
character reference produced by write_ncr is 10 bytes, so the reserve is
not large enough to hold one worst-case reference by itself. -/
theorem ncr_reserve_is_nine_not_ten :
    (EncoderModel.mk Enc.windows1252 id id).max_buffer_length_from_utf8_if_no_unmappables 0 -
      (EncoderModel.mk Enc.windows1252 id id).max_buffer_length_from_utf8_without_replacement 0
      = 9 ∧
    (EncoderModel.mk Enc.windows1252 id id).max_buffer_length_from_utf16_if_no_unmappables 0 -
      (EncoderModel.mk Enc.windows1252 id id).max_buffer_length_from_utf16_without_replacement 0
      = 9 ∧
    Enc.windows1252.can_encode_everything = false ∧
    (write_ncr 1114111 (List.replicate 10 0)).1 = 10 ∧
    ¬ (10 : Nat) ≤ 9 := by decide

/-- C4 (amended): for every encoder and every input length, each
if-no-unmappables sizing function equals its without-replacement
counterpart plus a fixed reserve, where the reserve is 0 when the
encoder's output encoding can encode all of Unicode and NCR_EXTRA = 9
bytes otherwise; the reference written by write_ncr is never longer than
NCR_EXTRA + 1 bytes, and reaches exactly NCR_EXTRA + 1 = 10 bytes for the
largest scalar value 1114111. -/
theorem max_buffer_length_if_no_unmappables_eq (e : EncoderModel) (n c : Nat) :
    e.max_buffer_length_from_utf8_if_no_unmappables n =
      e.max_buffer_length_from_utf8_without_replacement n +
        (if e.encoding.can_encode_everything then 0 else NCR_EXTRA) ∧
    e.max_buffer_length_from_utf16_if_no_unmappables n =
      e.max_buffer_length_from_utf16_without_replacement n +
        (if e.encoding.can_encode_everything then 0 else NCR_EXTRA) ∧
    NCR_EXTRA = 9 ∧
    (write_ncr c (List.replicate (write_ncr_len c) 0)).1 ≤ NCR_EXTRA + 1 ∧
    (write_ncr 1114111 (List.replicate 10 0)).1 = NCR_EXTRA + 1 :=
  ⟨rfl, rfl, rfl, write_ncr_len_le_ten c, by decide⟩

/-- C1: Encoding::for_name looks the name up in ENCODINGS_SORTED_BY_NAME
but returns the entry of ENCODINGS_IN_LABEL_SORT at the matching index,
so the name "Big5" (index 0 of the name-sorted table) resolves to IBM866
(index 0 of the label-sorted table) instead of Big5: the documented
round-trip for_name(E.name()) = Some(E) fails. -/
theorem for_name_big5_returns_ibm866 :
    for_name (abytes (Enc.big5.name)) = some Enc.ibm866 ∧
    Enc.ibm866 ≠ Enc.big5 ∧
    ENCODINGS_SORTED_BY_NAME.get? 0 = some Enc.big5 ∧
    ENCODINGS_IN_LABEL_SORT.get? 0 = some Enc.ibm866 := by decide

/-- C2: the inside loop of Encoding::for_label returns None as soon as
the trimmed token reaches LONGEST_LABEL_LENGTH = 19 bytes, so the 19-byte
label "cseucpkdfmtjapanese" — present in the label table, mapped to
EUC-JP, and the very label after which LONGEST_LABEL_LENGTH is named — can
never match; the whitespace handling itself behaves as claimed on the two
scenario inputs. -/
theorem for_label_rejects_19_byte_label :
    for_label (abytes "cseucpkdfmtjapanese") = none ∧
    label_table_lookup (abytes "cseucpkdfmtjapanese") LABELS_SORTED ENCODINGS_IN_LABEL_SORT
      = some Enc.eucJp ∧
    (abytes "cseucpkdfmtjapanese").length = LONGEST_LABEL_LENGTH ∧
    for_label (abytes " \t\nUTF-8\r\n ") = some Enc.utf8 ∧
    for_label (abytes "utf-8_") = none := by decide

end EncodingRs

namespace EncodingRs

theorem write_ncr_correct_witness :
    (10 ≤ 8364 ∧ 8364 ≤ 1114111 ∧ write_ncr_len 8364 ≤ (List.replicate 8 0).length) ∧
    ((write_ncr 8364 (List.replicate 8 0)).1 = (dec_digits 8364).length + 3 ∧
     (write_ncr 8364 (List.replicate 8 0)).2.take (write_ncr 8364 (List.replicate 8 0)).1 =
       [38, 35] ++ dec_digits 8364 ++ [59] ∧
     (dec_digits 8364).head? ≠ some 48 ∧
     (write_ncr 8364 (List.replicate 8 0)).2.drop (write_ncr 8364 (List.replicate 8 0)).1 =
       (List.replicate 8 0).drop (write_ncr 8364 (List.replicate 8 0)).1 ∧
     (write_ncr 8364 (List.replicate 8 0)).2.length = (List.replicate 8 0).length) :=
  ⟨⟨by norm_num, by norm_num, by decide⟩,
   write_ncr_correct 8364 (List.replicate 8 0) (by norm_num) (by norm_num) (by decide)⟩

end EncodingRs

namespace EncodingRs

/-- Whether a byte is a UTF-8 continuation byte (10xxxxxx). -/
def utf8_cont (b : Nat) : Bool :=
  0x80 ≤ b && b ≤ 0xBF

/-- Length of the single well-formed UTF-8 character at the front of the
input, if any: ASCII, two-byte C2..DF, three-byte E0..EF (with the E0/ED
restricted second-byte ranges excluding overlong forms and surrogates),
or four-byte F0..F4 (with the F0/F4 restricted second-byte ranges). -/
def utf8_char_len (l : List Nat) : Option Nat :=
  match l with
  | [] => none
  | b0 :: rest =>
    if b0 ≤ 0x7F then some 1
    else if 0xC2 ≤ b0 && b0 ≤ 0xDF then
      match rest with
      | b1 :: _ => if utf8_cont b1 then some 2 else none
      | [] => none
    else if 0xE0 ≤ b0 && b0 ≤ 0xEF then
      match rest with
      | b1 :: b2 :: _ =>
        if (if b0 = 0xE0 then 0xA0 ≤ b1 && b1 ≤ 0xBF
            else if b0 = 0xED then 0x80 ≤ b1 && b1 ≤ 0x9F
            else utf8_cont b1) && utf8_cont b2
        then some 3 else none
      | _ => none
    else if 0xF0 ≤ b0 && b0 ≤ 0xF4 then
      match rest with
      | b1 :: b2 :: b3 :: _ =>
        if (if b0 = 0xF0 then 0x90 ≤ b1 && b1 ≤ 0xBF
            else if b0 = 0xF4 then 0x80 ≤ b1 && b1 ≤ 0x8F
            else utf8_cont b1) && utf8_cont b2 && utf8_cont b3
        then some 4 else none
      | _ => none
    else none

theorem utf8_char_len_bounds (l : List Nat) (n : Nat) (h : utf8_char_len l = some n) :
    1 ≤ n ∧ n ≤ l.length := by
  unfold utf8_char_len at h
  repeat' split at h
  all_goals simp_all
  all_goals omega

/-- Modelled from the spec: utf8_valid_up_to from the utf_8 module, which
is not under src — the length of the longest prefix of the input that is
a sequence of well-formed UTF-8 characters. -/
def utf8_valid_up_to (l : List Nat) : Nat :=
  match h : utf8_char_len l with
  | some n => n + utf8_valid_up_to (l.drop n)
  | none => 0
termination_by l.length
decreasing_by
  have := utf8_char_len_bounds l n h
  simp only [List.length_drop]
  omega

/-- Modelled from the spec: ascii_valid_up_to from the ascii module, not
under src — the length of the longest prefix of bytes below 0x80. -/
def ascii_valid_up_to : List Nat → Nat
  | [] => 0
  | b :: rest => if b ≤ 0x7F then ascii_valid_up_to rest + 1 else 0

/-- A one-shot decode result either borrows the input bytes (the
zero-allocation fast path) or owns a freshly decoded buffer. -/
inductive CowOut where
  | borrowed (bytes : List Nat)
  | owned
  deriving DecidableEq

/-- Embeds Encoding::decode_without_bom_handling from src/lib.rs: for
ASCII-compatible encodings compute the valid prefix (full UTF-8 validity
for the UTF-8 encoding, ASCII validity otherwise); when the whole input
is valid, borrow it and report no error; otherwise allocate and drive the
Decoder engine (whose machinery is not under src — its error flag is the
abstract engine parameter). -/
def decode_without_bom_handling (engine_had_errors : Enc → List Nat → Bool)
    (e : Enc) (bytes : List Nat) : CowOut × Bool :=
  if e.is_ascii_compatible then
    let valid_up_to := if e = Enc.utf8 then utf8_valid_up_to bytes else ascii_valid_up_to bytes
    if valid_up_to = bytes.length then (.borrowed bytes, false)
    else (.owned, engine_had_errors e bytes)
  else (.owned, engine_had_errors e bytes)

/-- Embeds Encoding::decode from src/lib.rs: BOM-sniff the literal input,
then decode the rest without BOM handling under the resolved encoding;
returns the text, the resolved encoding and the error flag. -/
def decode (engine_had_errors : Enc → List Nat → Bool) (e : Enc) (bytes : List Nat) :
    CowOut × Enc × Bool :=
  match for_bom bytes with
  | some (enc, bom_length) =>
    let r := decode_without_bom_handling engine_had_errors enc (bytes.drop bom_length)
    (r.1, enc, r.2)
  | none =>
    let r := decode_without_bom_handling engine_had_errors e bytes
    (r.1, e, r.2)

theorem utf8_char_len_ff (rest : List Nat) : utf8_char_len (0xFF :: rest) = none := by
  unfold utf8_char_len
  norm_num

theorem utf8_char_len_fe (rest : List Nat) : utf8_char_len (0xFE :: rest) = none := by
  unfold utf8_char_len
  norm_num

theorem utf8_char_len_bom (rest : List Nat) :
    utf8_char_len (0xEF :: 0xBB :: 0xBF :: rest) = some 3 := by
  unfold utf8_char_len utf8_cont
  norm_num

theorem utf8_valid_up_to_none (l : List Nat) (h : utf8_char_len l = none) :
    utf8_valid_up_to l = 0 := by
  rw [utf8_valid_up_to]
  split
  · simp_all
  · rfl

theorem utf8_valid_up_to_nil : utf8_valid_up_to [] = 0 :=
  utf8_valid_up_to_none [] rfl

theorem utf8_valid_up_to_some (l : List Nat) (n : Nat) (h : utf8_char_len l = some n) :
    utf8_valid_up_to l = n + utf8_valid_up_to (l.drop n) := by
  rw [utf8_valid_up_to]
  split
  · simp_all
  · simp_all

theorem utf8_valid_up_to_ff (rest : List Nat) : utf8_valid_up_to (0xFF :: rest) = 0 :=
  utf8_valid_up_to_none _ (utf8_char_len_ff rest)

theorem utf8_valid_up_to_fe (rest : List Nat) : utf8_valid_up_to (0xFE :: rest) = 0 :=
  utf8_valid_up_to_none _ (utf8_char_len_fe rest)

theorem utf8_valid_up_to_bom (rest : List Nat) :
    utf8_valid_up_to (0xEF :: 0xBB :: 0xBF :: rest) = 3 + utf8_valid_up_to rest := by
  rw [utf8_valid_up_to_some _ 3 (utf8_char_len_bom rest)]
  rfl

theorem starts_with_three (b : List Nat) (x y z : Nat)
    (h : starts_with b [x, y, z] = true) : ∃ rest, b = x :: y :: z :: rest := by
  match b with
  | [] => rw [starts_with] at h; cases h
  | [b0] =>
    rw [starts_with] at h
    simp at h
    rw [starts_with] at h
    cases h.2
  | [b0, b1] =>
    rw [starts_with] at h
    simp at h
    rw [starts_with] at h
    simp at h
    rw [starts_with] at h
    cases h.2.2
  | b0 :: b1 :: b2 :: rest =>
    rw [starts_with] at h
    simp at h
    rw [starts_with] at h
    simp at h
    rw [starts_with] at h
    simp at h
    exact ⟨rest, by rw [h.1, h.2.1, h.2.2.1]⟩

end EncodingRs

namespace EncodingRs

theorem decode_without_bom_handling_utf8_valid (engine : Enc → List Nat → Bool)
    (x : List Nat) (hx : utf8_valid_up_to x = x.length) :
    decode_without_bom_handling engine Enc.utf8 x = (.borrowed x, false) := by
  rw [decode_without_bom_handling]
  rw [if_pos (by decide : Enc.utf8.is_ascii_compatible = true)]
  simp only [if_pos rfl, hx]
  simp

/-- C8: for every byte sequence that is valid UTF-8 in its entirety,
UTF_8.decode takes the zero-allocation fast path: it returns a borrowed
result holding the input's own bytes (after removal of a leading UTF-8
BOM when present), reports UTF-8 as the resolved encoding, and reports
had_errors = false — for every behavior of the engine slow path, which is
never reached. -/
theorem utf8_decode_borrows_valid_input (engine : Enc → List Nat → Bool) (b : List Nat)
    (h : utf8_valid_up_to b = b.length) :
    decode engine Enc.utf8 b =
      (.borrowed (if starts_with b [0xEF, 0xBB, 0xBF] then b.drop 3 else b),
       Enc.utf8, false) := by
  by_cases hbom : starts_with b [0xEF, 0xBB, 0xBF] = true
  · obtain ⟨rest, hb⟩ := starts_with_three b _ _ _ hbom
    subst hb
    have hrest : utf8_valid_up_to rest = rest.length := by
      rw [utf8_valid_up_to_bom] at h
      simp only [List.length_cons] at h
      omega
    have hfb : for_bom (0xEF :: 0xBB :: 0xBF :: rest) = some (Enc.utf8, 3) := by
      rw [for_bom]
      rw [if_pos hbom]
    rw [decode, hfb]
    dsimp only
    have hdrop : (0xEF :: 0xBB :: 0xBF :: rest).drop 3 = rest := rfl
    rw [hdrop, decode_without_bom_handling_utf8_valid engine rest hrest, if_pos hbom]
  · have hfb : for_bom b = none := by
      rw [for_bom]
      rw [if_neg hbom, if_neg ?_, if_neg ?_]
      · cases b with
        | nil => intro hx; cases hx
        | cons b0 rest =>
          intro hx
          have hb0 : b0 = 0xFE := by
            rw [starts_with] at hx
            simp at hx
            exact hx.1
          subst hb0
          rw [utf8_valid_up_to_fe] at h
          simp at h
      · cases b with
        | nil => intro hx; cases hx
        | cons b0 rest =>
          intro hx
          have hb0 : b0 = 0xFF := by
            rw [starts_with] at hx
            simp at hx
            exact hx.1
          subst hb0
          rw [utf8_valid_up_to_ff] at h
          simp at h
    rw [decode, hfb]
    dsimp only
    rw [decode_without_bom_handling_utf8_valid engine b h, if_neg hbom]

theorem utf8_decode_borrows_valid_input_witness :
    (utf8_valid_up_to [0xEF, 0xBB, 0xBF, 0x61] = [0xEF, 0xBB, 0xBF, 0x61].length) ∧
    decode (fun _ _ => true) Enc.utf8 [0xEF, 0xBB, 0xBF, 0x61] =
      (.borrowed (if starts_with [0xEF, 0xBB, 0xBF, 0x61] [0xEF, 0xBB, 0xBF]
                  then [0xEF, 0xBB, 0xBF, 0x61].drop 3
                  else [0xEF, 0xBB, 0xBF, 0x61]),
       Enc.utf8, false) := by
  have hval : utf8_valid_up_to [0xEF, 0xBB, 0xBF, 0x61] = [0xEF, 0xBB, 0xBF, 0x61].length := by
    rw [utf8_valid_up_to_bom, utf8_valid_up_to_some [0x61] 1 rfl,
        utf8_valid_up_to_none (List.drop 1 [0x61]) rfl]
    rfl
  exact ⟨hval, utf8_decode_borrows_valid_input (fun _ _ => true) [0xEF, 0xBB, 0xBF, 0x61] hval⟩

end EncodingRs

namespace EncodingRs

/-- The continuation-byte test of the zeroing loop in decode_to_str and
decode_to_str_without_replacement: the byte's top two bits are 10. -/
def is_trail_byte (b : Nat) : Bool :=
  b &&& 0xC0 == 0x80

/-- Embeds the trailing zeroing loop of Decoder::decode_to_str (and of
decode_to_str_without_replacement, which is identical) from src/lib.rs:
starting right after the written region, zero every byte whose top two
bits are 10, stopping at the first other byte or the end of the buffer. -/
def zero_trail_from (bytes : List Nat) (trail : Nat) : List Nat :=
  if h : trail < bytes.length ∧ is_trail_byte (bytes.getD trail 0) = true then
    zero_trail_from (bytes.set trail 0) (trail + 1)
  else bytes
termination_by bytes.length - trail
decreasing_by
  simp only [List.length_set]
  omega

theorem trail_byte_range : ∀ b : Nat, b < 256 →
    (is_trail_byte b = (0x80 ≤ b && b ≤ 0xBF)) := by decide

theorem getD_append_len (w t : List Nat) (d : Nat) : (w ++ t).getD w.length d = t.getD 0 d := by
  induction w with
  | nil => rfl
  | cons a w ih => simpa using ih

theorem set_append_len (w t : List Nat) (v : Nat) :
    (w ++ t).set w.length v = w ++ t.set 0 v := by
  induction w with
  | nil => rfl
  | cons a w ih => simpa using ih

theorem takeWhile_append_all (p : Nat → Bool) (l1 l2 : List Nat)
    (h : l1.all p = true) : (l1 ++ l2).takeWhile p = l1 ++ l2.takeWhile p := by
  induction l1 with
  | nil => rfl
  | cons a l ih =>
    simp only [List.all_cons, Bool.and_eq_true] at h
    simp only [List.cons_append, List.takeWhile_cons, h.1, ih h.2]
    simp

theorem zero_trail_from_append (t : List Nat) : ∀ (w : List Nat),
    zero_trail_from (w ++ t) w.length =
      w ++ List.replicate ((t.takeWhile is_trail_byte).length) 0 ++
        t.drop ((t.takeWhile is_trail_byte).length) := by
  induction t with
  | nil =>
    intro w
    rw [zero_trail_from]
    rw [dif_neg (by simp)]
    simp
  | cons b t' ih =>
    intro w
    rw [zero_trail_from]
    by_cases hb : is_trail_byte b = true
    · rw [dif_pos ⟨by simp, by rw [getD_append_len]; exact hb⟩]
      rw [set_append_len]
      have hset : (b :: t').set 0 0 = 0 :: t' := rfl
      rw [hset]
      have hw1 : w.length + 1 = (w ++ [0]).length := by simp
      have happ : w ++ 0 :: t' = (w ++ [0]) ++ t' := by simp
      rw [happ, hw1, ih (w ++ [0])]
      simp only [List.takeWhile_cons, hb]
      simp [List.replicate_succ, List.append_assoc]
    · rw [dif_neg (fun hx => hb (by
        have h2 := hx.2
        rw [getD_append_len] at h2
        exact h2))]
      simp only [List.takeWhile_cons, hb]
      simp

end EncodingRs

namespace EncodingRs

theorem is_trail_eq_cont : ∀ b : Nat, b ≤ 0xF4 → is_trail_byte b = utf8_cont b := by decide

theorem utf8_char_len_structure (l : List Nat) (n : Nat) (h : utf8_char_len l = some n) :
    1 ≤ n ∧ n ≤ 4 ∧ n ≤ l.length ∧
    utf8_cont (l.getD 0 0) = false ∧
    ((l.take n).drop 1).all utf8_cont = true ∧
    (l.take n).all (fun b => b ≤ 0xF4) = true := by
  unfold utf8_char_len at h
  repeat' split at h
  all_goals cases h
  all_goals simp_all [utf8_cont, List.getD, List.getElem?_cons_zero, Option.getD_some]
  all_goals omega

end EncodingRs

namespace EncodingRs

theorem utf8_char_len_append (l x : List Nat) (n : Nat) (h : utf8_char_len l = some n) :
    utf8_char_len (l ++ x) = some n := by
  unfold utf8_char_len at *
  repeat' split at h
  all_goals cases h
  all_goals simp_all
  all_goals repeat' split
  all_goals simp_all
  all_goals omega

theorem utf8_valid_append_aux (N : Nat) : ∀ (a : List Nat), a.length ≤ N →
    utf8_valid_up_to a = a.length →
    ∀ b, utf8_valid_up_to (a ++ b) = a.length + utf8_valid_up_to b := by
  induction N with
  | zero =>
    intro a hlen _ b
    have ha : a = [] := List.eq_nil_of_length_eq_zero (by omega)
    subst ha
    simp
  | succ N ih =>
    intro a hlen hval b
    cases ha : utf8_char_len a with
    | none =>
      have h0 := utf8_valid_up_to_none a ha
      rw [h0] at hval
      have : a = [] := List.eq_nil_of_length_eq_zero (by omega)
      subst this
      simp
    | some n =>
      have hs := utf8_char_len_structure a n ha
      have hu := utf8_valid_up_to_some a n ha
      have hdropval : utf8_valid_up_to (a.drop n) = (a.drop n).length := by
        rw [hu] at hval
        simp only [List.length_drop]
        omega
      have happ := utf8_char_len_append a b n ha
      rw [utf8_valid_up_to_some (a ++ b) n happ]
      have hdrop : (a ++ b).drop n = a.drop n ++ b := by
        rw [List.drop_append_eq_append_drop]
        have : n - a.length = 0 := by omega
        rw [this]
        rfl
      rw [hdrop, ih (a.drop n) (by simp only [List.length_drop]; omega) hdropval b]
      simp only [List.length_drop]
      omega

theorem utf8_valid_append (a b : List Nat) (h : utf8_valid_up_to a = a.length) :
    utf8_valid_up_to (a ++ b) = a.length + utf8_valid_up_to b :=
  utf8_valid_append_aux a.length a le_rfl h b

theorem utf8_valid_replicate_zero (j : Nat) (x : List Nat) :
    utf8_valid_up_to (List.replicate j 0 ++ x) = j + utf8_valid_up_to x := by
  induction j with
  | zero => simp
  | succ j ih =>
    have h1 : List.replicate (j + 1) 0 ++ x = 0 :: (List.replicate j 0 ++ x) := by
      simp [List.replicate_succ]
    rw [h1, utf8_valid_up_to_some (0 :: (List.replicate j 0 ++ x)) 1 rfl]
    have h2 : (0 :: (List.replicate j 0 ++ x)).drop 1 = List.replicate j 0 ++ x := rfl
    rw [h2, ih]
    omega

theorem valid_takeWhile_trail_nil (s : List Nat) (hval : utf8_valid_up_to s = s.length) :
    s.takeWhile is_trail_byte = [] := by
  cases s with
  | nil => rfl
  | cons b0 rest =>
    cases ha : utf8_char_len (b0 :: rest) with
    | none =>
      have h0 := utf8_valid_up_to_none _ ha
      rw [h0] at hval
      simp at hval
    | some n =>
      have hs := utf8_char_len_structure _ n ha
      have hhead : utf8_cont b0 = false := hs.2.2.2.1
      have hb0 : b0 ≤ 0xF4 := by
        have h1 : 1 ≤ n := hs.1
        have hmem : b0 ∈ (b0 :: rest).take n := by
          cases n with
          | zero => omega
          | succ m => simp [List.take_cons]
        have hall := hs.2.2.2.2.2
        rw [List.all_eq_true] at hall
        have := hall b0 hmem
        simpa using this
      rw [List.takeWhile_cons]
      rw [is_trail_eq_cont b0 hb0, hhead]
      simp

end EncodingRs

namespace EncodingRs

theorem valid_suffix_trail_aux (N : Nat) : ∀ (s : List Nat), s.length ≤ N →
    utf8_valid_up_to s = s.length → ∀ k,
    ((s.drop k).takeWhile is_trail_byte).length ≤ 3 ∧
    utf8_valid_up_to ((s.drop k).drop ((s.drop k).takeWhile is_trail_byte).length) =
      ((s.drop k).drop ((s.drop k).takeWhile is_trail_byte).length).length := by
  induction N with
  | zero =>
    intro s hlen _ k
    have hs : s = [] := List.eq_nil_of_length_eq_zero (by omega)
    subst hs
    simp [utf8_valid_up_to_nil]
  | succ N ih =>
    intro s hlen hval k
    cases ha : utf8_char_len s with
    | none =>
      have h0 := utf8_valid_up_to_none s ha
      rw [h0] at hval
      have hs : s = [] := List.eq_nil_of_length_eq_zero (by omega)
      subst hs
      simp [utf8_valid_up_to_nil]
    | some n =>
      have hs := utf8_char_len_structure s n ha
      have hu := utf8_valid_up_to_some s n ha
      have hdropval : utf8_valid_up_to (s.drop n) = (s.drop n).length := by
        rw [hu] at hval
        simp only [List.length_drop]
        omega
      by_cases hk0 : k = 0
      · subst hk0
        rw [List.drop_zero, valid_takeWhile_trail_nil s hval]
        simpa using hval
      · by_cases hkn : n ≤ k
        · have hdd : s.drop k = (s.drop n).drop (k - n) := by
            rw [List.drop_drop]
            congr 1
            omega
          rw [hdd]
          exact ih (s.drop n) (by simp only [List.length_drop]; omega) hdropval (k - n)
        · -- 0 < k < n: inside the leading character
          have hk1 : 1 ≤ k := by omega
          have hkn' : k < n := by omega
          have hnlen : n ≤ s.length := hs.2.2.1
          have htakelen : (s.take n).length = n := by
            rw [List.length_take]
            omega
          have hsplit : s.drop k = (s.take n).drop k ++ s.drop n := by
            conv_lhs => rw [← List.take_append_drop n s]
            rw [List.drop_append_eq_append_drop, htakelen]
            have : k - n = 0 := by omega
            rw [this, List.drop_zero]
          have halltrail : ((s.take n).drop k).all is_trail_byte = true := by
            rw [List.all_eq_true]
            intro x hx
            have hx1 : x ∈ (s.take n).drop 1 := by
              have : (s.take n).drop k = ((s.take n).drop 1).drop (k - 1) := by
                rw [List.drop_drop]
                congr 1
                omega
              rw [this] at hx
              exact List.drop_subset _ _ hx
            have hcont : utf8_cont x = true := by
              have hall := hs.2.2.2.2.1
              rw [List.all_eq_true] at hall
              exact hall x hx1
            have hbound : x ≤ 0xF4 := by
              have hall := hs.2.2.2.2.2
              rw [List.all_eq_true] at hall
              have hx2 : x ∈ s.take n := List.drop_subset _ _ hx1
              simpa using hall x hx2
            rw [is_trail_eq_cont x hbound]
            exact hcont
          have htw : (s.drop k).takeWhile is_trail_byte = (s.take n).drop k := by
            rw [hsplit, takeWhile_append_all _ _ _ halltrail,
                valid_takeWhile_trail_nil (s.drop n) hdropval]
            simp
          have hlen2 : ((s.take n).drop k).length = n - k := by
            simp only [List.length_drop, htakelen]
          refine ⟨?_, ?_⟩
          · rw [htw, hlen2]
            omega
          · rw [htw, hsplit, hlen2]
            have : ((s.take n).drop k ++ s.drop n).drop (n - k) = s.drop n := by
              have h1 : n - k = ((s.take n).drop k).length := by omega
              rw [h1, List.drop_left]
            rw [this]
            exact hdropval

theorem valid_suffix_trail (s : List Nat) (hval : utf8_valid_up_to s = s.length) (k : Nat) :
    ((s.drop k).takeWhile is_trail_byte).length ≤ 3 ∧
    utf8_valid_up_to ((s.drop k).drop ((s.drop k).takeWhile is_trail_byte).length) =
      ((s.drop k).drop ((s.drop k).takeWhile is_trail_byte).length).length :=
  valid_suffix_trail_aux s.length s le_rfl hval k

end EncodingRs

namespace EncodingRs

/-- C10: after the trailing zeroing loop of decode_to_str (and of
decode_to_str_without_replacement) runs on a buffer whose written region
holds complete valid UTF-8 and whose unwritten tail is a suffix (from an
arbitrary byte offset) of the originally valid destination string, the
loop zeroes at most three continuation bytes immediately after the
written region, leaves the buffer length unchanged, and the entire
buffer — not just the written region — is valid UTF-8. -/
theorem decode_to_str_tail_stays_valid (w s : List Nat) (k : Nat)
    (hw : utf8_valid_up_to w = w.length)
    (hs : utf8_valid_up_to s = s.length) :
    ∃ j, j ≤ 3 ∧
      zero_trail_from (w ++ s.drop k) w.length =
        w ++ List.replicate j 0 ++ (s.drop k).drop j ∧
      (zero_trail_from (w ++ s.drop k) w.length).length = (w ++ s.drop k).length ∧
      utf8_valid_up_to (zero_trail_from (w ++ s.drop k) w.length) =
        (w ++ s.drop k).length := by
  have htr := valid_suffix_trail s hs k
  have hsp := zero_trail_from_append (s.drop k) w
  have hjle : ((s.drop k).takeWhile is_trail_byte).length ≤ (s.drop k).length :=
    (List.takeWhile_sublist is_trail_byte).length_le
  have hTd : (((s.drop k)).drop ((s.drop k).takeWhile is_trail_byte).length).length =
      (s.drop k).length - ((s.drop k).takeWhile is_trail_byte).length := by
    rw [List.length_drop]
  refine ⟨((s.drop k).takeWhile is_trail_byte).length, htr.1, hsp, ?_, ?_⟩
  · rw [hsp]
    simp only [List.length_append, List.length_replicate, hTd]
    omega
  · rw [hsp, List.append_assoc, utf8_valid_append w _ hw, utf8_valid_replicate_zero, htr.2,
        hTd]
    simp only [List.length_append]
    omega

theorem decode_to_str_tail_stays_valid_witness :
    (utf8_valid_up_to [0x61] = [0x61].length ∧
     utf8_valid_up_to [0xE2, 0x82, 0xAC] = [0xE2, 0x82, 0xAC].length) ∧
    (∃ j, j ≤ 3 ∧
      zero_trail_from ([0x61] ++ [0xE2, 0x82, 0xAC].drop 1) [0x61].length =
        [0x61] ++ List.replicate j 0 ++ ([0xE2, 0x82, 0xAC].drop 1).drop j ∧
      (zero_trail_from ([0x61] ++ [0xE2, 0x82, 0xAC].drop 1) [0x61].length).length =
        ([0x61] ++ [0xE2, 0x82, 0xAC].drop 1).length ∧
      utf8_valid_up_to (zero_trail_from ([0x61] ++ [0xE2, 0x82, 0xAC].drop 1) [0x61].length) =
        ([0x61] ++ [0xE2, 0x82, 0xAC].drop 1).length) := by
  have h1 : utf8_valid_up_to [0x61] = [0x61].length := by
    rw [utf8_valid_up_to_some [0x61] 1 rfl, utf8_valid_up_to_none (List.drop 1 [0x61]) rfl]
    rfl
  have h2 : utf8_valid_up_to [0xE2, 0x82, 0xAC] = [0xE2, 0x82, 0xAC].length := by
    rw [utf8_valid_up_to_some [0xE2, 0x82, 0xAC] 3 rfl,
        utf8_valid_up_to_none (List.drop 3 [0xE2, 0x82, 0xAC]) rfl]
    rfl
  exact ⟨⟨h1, h2⟩, decode_to_str_tail_stays_valid [0x61] [0xE2, 0x82, 0xAC] 1 h1 h2⟩

end EncodingRs

namespace EncodingRs

/-- Modelled from the spec (§6 collaborator contract): a Variant
Capability for decoding — a deterministic byte-driven state machine with
an initial state, a per-byte step emitting code points (with replacements
already applied) and counting errors, and an end-of-stream finalisation
doing the same for any incomplete sequence. -/
structure ByteMachine (σ : Type) where
  init : σ
  step : σ → Nat → σ × List Nat × Nat
  eof : σ → List Nat × Nat

/-- Modelled from the spec (§4.2): the BOM life-cycle states of a Sniff
mode Decoder that are reachable while feeding bytes (Converting is split
by which underlying machine is active after sniffing resolved). -/
inductive SniffState (σ : Type) where
  | atStart
  | seenUtf8First
  | seenUtf8Second
  | seenUtf16BeFirst
  | seenUtf16LeFirst
  | convOrig (s : σ)
  | convUtf8 (s : σ)
  | convBe (s : σ)
  | convLe (s : σ)

/-- Modelled from the spec: a Sniff-mode Decoder is its original
encoding's variant machine plus fresh machines for the three encodings a
BOM can morph it into. -/
structure SniffDecoder (σ : Type) where
  orig : ByteMachine σ
  mUtf8 : ByteMachine σ
  mBe : ByteMachine σ
  mLe : ByteMachine σ

/-- Feed a byte list into a machine from a given state, concatenating the
emitted code points and summing the error counts. -/
def machine_feed (m : ByteMachine σ) : σ → List Nat → σ × List Nat × Nat
  | s, [] => (s, [], 0)
  | s, b :: rest =>
    let r1 := m.step s b
    let r2 := machine_feed m r1.1 rest
    (r2.1, r1.2.1 ++ r2.2.1, r1.2.2 + r2.2.2)

/-- Replay bytes that turned out not to be a BOM into the original
encoding's machine, starting it fresh, and continue converting with it. -/
def sniff_replay (d : SniffDecoder σ) (bytes : List Nat) : SniffState σ × List Nat × Nat :=
  let r := machine_feed d.orig d.orig.init bytes
  (.convOrig r.1, r.2.1, r.2.2)

/-- Modelled from the spec (§4.2): one byte of the Sniff life cycle.  A
BOM byte advances the partial match; a full BOM switches to a fresh
machine for the BOM-indicated encoding without emitting the BOM; a failed
partial match replays the consumed prefix and the current byte into the
original machine; once converting, bytes go straight to the active
machine. -/
def sniff_step (d : SniffDecoder σ) (st : SniffState σ) (b : Nat) :
    SniffState σ × List Nat × Nat :=
  match st with
  | .atStart =>
    if b = 0xEF then (.seenUtf8First, [], 0)
    else if b = 0xFE then (.seenUtf16BeFirst, [], 0)
    else if b = 0xFF then (.seenUtf16LeFirst, [], 0)
    else sniff_replay d [b]
  | .seenUtf8First =>
    if b = 0xBB then (.seenUtf8Second, [], 0)
    else sniff_replay d [0xEF, b]
  | .seenUtf8Second =>
    if b = 0xBF then (.convUtf8 d.mUtf8.init, [], 0)
    else sniff_replay d [0xEF, 0xBB, b]
  | .seenUtf16BeFirst =>
    if b = 0xFF then (.convBe d.mBe.init, [], 0)
    else sniff_replay d [0xFE, b]
  | .seenUtf16LeFirst =>
    if b = 0xFE then (.convLe d.mLe.init, [], 0)
    else sniff_replay d [0xFF, b]
  | .convOrig s =>
    let r := d.orig.step s b
    (.convOrig r.1, r.2.1, r.2.2)
  | .convUtf8 s =>
    let r := d.mUtf8.step s b
    (.convUtf8 r.1, r.2.1, r.2.2)
  | .convBe s =>
    let r := d.mBe.step s b
    (.convBe r.1, r.2.1, r.2.2)
  | .convLe s =>
    let r := d.mLe.step s b
    (.convLe r.1, r.2.1, r.2.2)

/-- Modelled from the spec (§4.2): end of stream.  Pending BOM-prefix
bytes are replayed into the original machine, which is then finalised;
an active machine is finalised directly. -/
def sniff_eof (d : SniffDecoder σ) (st : SniffState σ) : List Nat × Nat :=
  match st with
  | .atStart => d.orig.eof d.orig.init
  | .seenUtf8First =>
    let r := machine_feed d.orig d.orig.init [0xEF]
    let e := d.orig.eof r.1
    (r.2.1 ++ e.1, r.2.2 + e.2)
  | .seenUtf8Second =>
    let r := machine_feed d.orig d.orig.init [0xEF, 0xBB]
    let e := d.orig.eof r.1
    (r.2.1 ++ e.1, r.2.2 + e.2)
  | .seenUtf16BeFirst =>
    let r := machine_feed d.orig d.orig.init [0xFE]
    let e := d.orig.eof r.1
    (r.2.1 ++ e.1, r.2.2 + e.2)
  | .seenUtf16LeFirst =>
    let r := machine_feed d.orig d.orig.init [0xFF]
    let e := d.orig.eof r.1
    (r.2.1 ++ e.1, r.2.2 + e.2)
  | .convOrig s => d.orig.eof s
  | .convUtf8 s => d.mUtf8.eof s
  | .convBe s => d.mBe.eof s
  | .convLe s => d.mLe.eof s

/-- Feed one buffer (one decode_* call with last = false). -/
def sniff_feed (d : SniffDecoder σ) : SniffState σ → List Nat → SniffState σ × List Nat × Nat
  | st, [] => (st, [], 0)
  | st, b :: rest =>
    let r1 := sniff_step d st b
    let r2 := sniff_feed d r1.1 rest
    (r2.1, r1.2.1 ++ r2.2.1, r1.2.2 + r2.2.2)

/-- Feed a sequence of chunks, the last call carrying last = true (the
end-of-stream finalisation): the concatenated emitted text and the total
error count. -/
def decode_chunks (d : SniffDecoder σ) : SniffState σ → List (List Nat) → List Nat × Nat
  | st, [] => sniff_eof d st
  | st, c :: rest =>
    let r := sniff_feed d st c
    let r2 := decode_chunks d r.1 rest
    (r.2.1 ++ r2.1, r.2.2 + r2.2)

theorem sniff_feed_append (d : SniffDecoder σ) (a : List Nat) :
    ∀ (st : SniffState σ) (b : List Nat),
    sniff_feed d st (a ++ b) =
      ((sniff_feed d (sniff_feed d st a).1 b).1,
       (sniff_feed d st a).2.1 ++ (sniff_feed d (sniff_feed d st a).1 b).2.1,
       (sniff_feed d st a).2.2 + (sniff_feed d (sniff_feed d st a).1 b).2.2) := by
  induction a with
  | nil =>
    intro st b
    simp [sniff_feed]
  | cons x a ih =>
    intro st b
    simp only [List.cons_append, sniff_feed]
    simp only [List.append_eq]
    rw [ih (sniff_step d st x).1 b]
    simp [List.append_assoc, Nat.add_assoc]

theorem decode_chunks_join (d : SniffDecoder σ) (chunks : List (List Nat)) :
    ∀ st, decode_chunks d st chunks =
      ((sniff_feed d st chunks.flatten).2.1 ++
         (sniff_eof d (sniff_feed d st chunks.flatten).1).1,
       (sniff_feed d st chunks.flatten).2.2 +
         (sniff_eof d (sniff_feed d st chunks.flatten).1).2) := by
  induction chunks with
  | nil =>
    intro st
    simp [decode_chunks, sniff_feed, List.flatten]
  | cons c rest ih =>
    intro st
    simp only [decode_chunks, ih, List.flatten, sniff_feed_append]
    simp [Prod.ext_iff, List.append_assoc]
    omega

/-- C5: for every per-byte variant machine family, every input and every
partition of it into chunks fed in order to a Sniff-mode decoder (last
= true only on the final call), the concatenated emitted text and total
error count equal those of feeding the whole input in one call. -/
theorem decode_chunking_invariance (σ : Type) (d : SniffDecoder σ)
    (chunks : List (List Nat)) :
    decode_chunks d .atStart chunks = decode_chunks d .atStart [chunks.flatten] := by
  rw [decode_chunks_join d chunks, decode_chunks_join d [chunks.flatten]]
  simp [List.flatten]

end EncodingRs
